import Mathlib

/-!
Verification of the Live Session Orchestrator of the voicekit repository.

The definitions below are a shallow embedding of the TypeScript source:
  * the Turn Ledger (`useLogStore.addTurn` / `updateLastTurn` in
    `src/lib/state.ts` and the transcription / content / turn-complete
    handlers of `useLiveApi` in the orchestration file),
  * the tool dispatcher (`onToolCall` and its helpers),
  * the confirmation slot (`useUI.requestConfirmation` / `clearConfirmation`),
  * the keep-alive tick (`startBackgroundTasks`),
  * the background task tracker (`useTaskStore`) together with the update
    sequences produced by the video and presentation executions,
  * the status poller (`pollForResult`), as a small-step event system
    whose interval firings and fetch resolutions interleave freely.
Asynchronous callbacks are modelled by explicit state passing, one step per
JavaScript macro/micro task; real time (interval durations) is abstracted
into discrete ticks.
-/

namespace VoiceKit

/-! ## Turn Ledger (src/lib/state.ts `useLogStore`, orchestration handlers) -/

inductive Role
  | user
  | agent
  | system
deriving DecidableEq, Repr

/-- A grounding citation, already normalised (the handler keeps only chunks
with a web uri and defaults the title to the uri). -/
structure GroundingChunk where
  uri : String
  title : String
deriving DecidableEq, Repr

/-- One conversation turn.  `timestamp`, attachments and tool payloads are
not relevant to the merge rule and are omitted. -/
structure ConversationTurn where
  role : Role
  text : String
  isFinal : Bool
  groundingChunks : List GroundingChunk := []
deriving DecidableEq, Repr

/-- Model of `useLogStore.addTurn`: appends a turn at the end of the ledger. -/
def addTurn (turns : List ConversationTurn) (t : ConversationTurn) :
    List ConversationTurn :=
  turns ++ [t]

/-- Model of `useLogStore.updateLastTurn`: no-op on an empty ledger, otherwise
replaces the last turn by its updated copy. -/
def updateLastTurn (turns : List ConversationTurn)
    (f : ConversationTurn → ConversationTurn) : List ConversationTurn :=
  match turns.getLast? with
  | none => turns
  | some last => turns.dropLast ++ [f last]

/-- Model of `handleInputTranscription`: merge an inbound (user) transcript delta. -/
def handleInputTranscription (turns : List ConversationTurn)
    (text : String) (isFinal : Bool) : List ConversationTurn :=
  match turns.getLast? with
  | some last =>
    if last.role = Role.user ∧ last.isFinal = false then
      updateLastTurn turns fun l => { l with text := l.text ++ text, isFinal := isFinal }
    else
      addTurn turns ⟨Role.user, text, isFinal, []⟩
  | none => addTurn turns ⟨Role.user, text, isFinal, []⟩

/-- Model of `handleOutputTranscription`: merge an outbound (agent) transcript delta. -/
def handleOutputTranscription (turns : List ConversationTurn)
    (text : String) (isFinal : Bool) : List ConversationTurn :=
  match turns.getLast? with
  | some last =>
    if last.role = Role.agent ∧ last.isFinal = false then
      updateLastTurn turns fun l => { l with text := l.text ++ text, isFinal := isFinal }
    else
      addTurn turns ⟨Role.agent, text, isFinal, []⟩
  | none => addTurn turns ⟨Role.agent, text, isFinal, []⟩

/-- Model of `handleContent`: merge a structured content delta (agent text plus
citations).  An empty delta (no text, no chunks) is dropped; the merge never
finalises the turn, and chunks are appended only when the delta carries
some. -/
def handleContent (turns : List ConversationTurn)
    (text : String) (chunks : List GroundingChunk) : List ConversationTurn :=
  if text = "" ∧ chunks = [] then turns
  else
    match turns.getLast? with
    | some last =>
      if last.role = Role.agent ∧ last.isFinal = false then
        updateLastTurn turns fun l =>
          { l with
            text := l.text ++ text,
            groundingChunks :=
              if chunks = [] then l.groundingChunks else l.groundingChunks ++ chunks }
      else
        addTurn turns ⟨Role.agent, text, false, chunks⟩
    | none => addTurn turns ⟨Role.agent, text, false, chunks⟩

/-- Model of `handleTurnComplete` (ledger part): finalise the last turn when it is
still open. -/
def handleTurnComplete (turns : List ConversationTurn) : List ConversationTurn :=
  match turns.getLast? with
  | some last =>
    if last.isFinal = false then updateLastTurn turns fun l => { l with isFinal := true }
    else turns
  | none => turns

/-- The transport events that mutate the ledger. -/
inductive LedgerEvent
  | inputDelta (text : String) (isFinal : Bool)
  | outputDelta (text : String) (isFinal : Bool)
  | contentDelta (text : String) (chunks : List GroundingChunk)
  | turnComplete
deriving DecidableEq, Repr

def stepLedger (turns : List ConversationTurn) : LedgerEvent → List ConversationTurn
  | .inputDelta t f => handleInputTranscription turns t f
  | .outputDelta t f => handleOutputTranscription turns t f
  | .contentDelta t c => handleContent turns t c
  | .turnComplete => handleTurnComplete turns

def runLedger (turns : List ConversationTurn) (es : List LedgerEvent) :
    List ConversationTurn :=
  es.foldl stepLedger turns

/-- The number of open (non-final) turns of a ledger. -/
def openCount (turns : List ConversationTurn) : Nat :=
  (turns.filter fun t => t.isFinal = false).length

/-- The stream role carried by an event (`none` for turn-complete). -/
def eventRole : LedgerEvent → Option Role
  | .inputDelta _ _ => some Role.user
  | .outputDelta _ _ => some Role.agent
  | .contentDelta _ _ => some Role.agent
  | .turnComplete => none

/-- The event sequence produced by splitting one user utterance into the
given chunks: every delta is non-final except the last. -/
def chunkEvents : List String → List LedgerEvent
  | [] => []
  | [c] => [.inputDelta c true]
  | c :: c2 :: cs => .inputDelta c false :: chunkEvents (c2 :: cs)

/-! ## Tool dispatcher (`onToolCall` and the confirmation slot)

`onToolCall` iterates the batch synchronously.  An admin-restricted call by a
caller with a (truthy) non-admin email pushes its response entry and
`continue`s.  A sensitive call stores a confirmation request in the single
`useUI.confirmation` slot (`set` overwrites any previous one).  A native
Gemini tool resolves synchronously inside the loop; every other strategy
suspends at its first `await` and resolves after the loop, pushing its entry
and sending the aggregate response when all `N` entries are present.  The
model keeps the event-loop structure: the fold is the synchronous loop;
`resolveAsync`, `approveConfirmation` and `denyConfirmation` are the later
steps.  `dropped` is ghost state recording confirmation requests that were
overwritten before the user could resolve them. -/

structure FunctionCall where
  id : String
  name : String
deriving DecidableEq, Repr

structure FunctionResponse where
  id : String
  name : String
  result : String
deriving DecidableEq, Repr

def SENSITIVE_TOOLS : List String :=
  ["place_call", "send_gmail_message", "send_whatsapp_message",
   "send_telegram_message", "send_messenger_message", "post_to_facebook_page",
   "post_on_linkedin"]

def NATIVE_GEMINI_TOOLS : List String :=
  ["create_presentation_outline", "summarize_text", "translate_text",
   "draft_social_media_post", "analyze_sentiment", "extract_keywords",
   "generate_quiz", "write_code_snippet", "explain_code_snippet"]

def ADMIN_ONLY_TOOLS : List String := ["write_code_snippet", "generate_video"]

def ADMIN_EMAIL : String := "masterdee@aiteksoftware.site"

/-- The guard `user?.email && ADMIN_ONLY_TOOLS.includes(fc.name) &&
user.email !== ADMIN_EMAIL`.  `none` stands for a missing user or a user
without an email; the empty string is falsy in JavaScript, so it does not
trigger the guard either. -/
def adminRejected : Option String → String → Bool
  | none, _ => false
  | some e, name => (!(e == "")) && ADMIN_ONLY_TOOLS.contains name && (!(e == ADMIN_EMAIL))

def restrictedResponse (fc : FunctionCall) : FunctionResponse :=
  ⟨fc.id, fc.name,
   s!"I\x27m sorry, the tool \x27{fc.name}\x27 is currently restricted to administrators."⟩

def nativeResponse (fc : FunctionCall) : FunctionResponse :=
  ⟨fc.id, fc.name,
   s!"The request for \x27{fc.name}\x27 will be handled directly in my response."⟩

def cancelledResponse (fc : FunctionCall) : FunctionResponse :=
  ⟨fc.id, fc.name, "The user cancelled the action."⟩

structure DispatchState where
  /-- The `functionResponses` array, in push order. -/
  responses : List FunctionResponse
  /-- Payloads of the `client.sendToolResponse` calls made so far. -/
  sent : List (List FunctionResponse)
  /-- Async executions started but not yet resolved. -/
  pending : List FunctionCall
  /-- The single `useUI.confirmation` slot. -/
  confirmation : Option FunctionCall
  /-- Ghost state: confirmation requests overwritten before resolution. -/
  dropped : List FunctionCall
  /-- Calls whose execution strategy was started. -/
  invoked : List FunctionCall
deriving DecidableEq, Repr

def initDispatch : DispatchState := ⟨[], [], [], none, [], []⟩

/-- Push one response entry and run the `functionResponses.length ===
toolCall.functionCalls.length` completion check that follows every push in
`executeTool` and in `onCancel` (`n` is the batch size). -/
def pushAndCheck (n : Nat) (st : DispatchState) (r : FunctionResponse) :
    DispatchState :=
  if (st.responses ++ [r]).length = n then
    { st with responses := st.responses ++ [r],
              sent := st.sent ++ [st.responses ++ [r]] }
  else { st with responses := st.responses ++ [r] }

/-- One iteration of the `for (const fc of toolCall.functionCalls)` loop. -/
def processCall (n : Nat) (email : Option String) (st : DispatchState)
    (fc : FunctionCall) : DispatchState :=
  if adminRejected email fc.name then
    -- the rejected entry is pushed with NO completion check (`continue`)
    { st with responses := st.responses ++ [restrictedResponse fc] }
  else if SENSITIVE_TOOLS.contains fc.name then
    -- `requestConfirmation` overwrites the slot (state.ts `set({confirmation})`)
    { st with confirmation := some fc, dropped := st.dropped ++ st.confirmation.toList }
  else if NATIVE_GEMINI_TOOLS.contains fc.name then
    -- the native branch of `executeTool` has no `await`: it resolves in-loop
    pushAndCheck n { st with invoked := st.invoked ++ [fc] } (nativeResponse fc)
  else
    -- every other strategy starts now and resolves at a later step
    { st with invoked := st.invoked ++ [fc], pending := st.pending ++ [fc] }

/-- The synchronous part of `onToolCall` on a whole batch. -/
def processBatch (email : Option String) (batch : List FunctionCall) :
    DispatchState :=
  batch.foldl (processCall batch.length email) initDispatch

/-- A suspended execution resolves with some result payload. -/
def resolveAsync (n : Nat) (st : DispatchState) (fc : FunctionCall)
    (result : String) : DispatchState :=
  if st.pending.contains fc then
    pushAndCheck n { st with pending := st.pending.erase fc } ⟨fc.id, fc.name, result⟩
  else st

/-- The modal Confirm button: run `onConfirm` (which starts the execution
of the tool; every sensitive tool executes asynchronously) then clear the
slot. -/
def approveConfirmation (st : DispatchState) : DispatchState :=
  match st.confirmation with
  | none => st
  | some fc =>
    { st with
      confirmation := none, invoked := st.invoked ++ [fc], pending := st.pending ++ [fc] }

/-- The modal Cancel button: `onCancel` pushes the cancelled entry (with
the completion check), then the slot is cleared. -/
def denyConfirmation (n : Nat) (st : DispatchState) : DispatchState :=
  match st.confirmation with
  | none => st
  | some fc => pushAndCheck n { st with confirmation := none } (cancelledResponse fc)

/-! ## Keep-alive tick (`startBackgroundTasks`) -/

inductive ClientStatus
  | connected
  | disconnected
  | connecting
deriving DecidableEq, Repr

/-- One realtime chunk handed to `client.sendRealtimeInput`; `data` is the
byte sequence before base64 encoding (the encoding is a transport detail). -/
structure RealtimeChunk where
  mimeType : String
  data : List Nat
deriving DecidableEq, Repr

/-- The frame `new Uint8Array(320)` is zero-initialised, tagged `audio/pcm;rate=16000`. -/
def silentChunk : RealtimeChunk :=
  ⟨"audio/pcm;rate=16000", List.replicate 320 0⟩

/-- One tick of the 30-second keep-alive interval: the chunks it sends.
`activitySinceLastTick` records whether any other outbound traffic happened
since the previous tick; the code body consults only `client.status`. -/
def keepAliveTick (status : ClientStatus) (_activitySinceLastTick : Bool) :
    List RealtimeChunk :=
  if status = ClientStatus.connected then [silentChunk] else []

/-! ## Background task tracker (`useTaskStore`) and its writers -/

inductive TaskStatus
  | running
  | completed
  | failed
deriving DecidableEq, Repr

inductive ResultKind
  | download
  | view
deriving DecidableEq, Repr

/-- A task result reference; the payload (a URL or the presentation view
data) is opaque to the tracker. -/
structure TaskResult where
  kind : ResultKind
  payload : String
deriving DecidableEq, Repr

structure BackgroundTask where
  id : String
  name : String
  status : TaskStatus
  progress : ℚ
  message : String
  result : Option TaskResult := none
deriving DecidableEq, Repr

/-- The partial-update object passed to `updateTask`: only the fields the
caller supplies are overwritten. -/
structure TaskUpdate where
  status : Option TaskStatus := none
  progress : Option ℚ := none
  message : Option String := none
  result : Option TaskResult := none
deriving DecidableEq, Repr

/-- The spread `{ ...t, ...updates }` restricted to one task. -/
def applyUpdate (t : BackgroundTask) (u : TaskUpdate) : BackgroundTask :=
  { t with
    status := u.status.getD t.status,
    progress := u.progress.getD t.progress,
    message := u.message.getD t.message,
    result := match u.result with | some r => some r | none => t.result }

/-- Model of `addTask`: prepends the new task. -/
def addTask (tasks : List BackgroundTask) (t : BackgroundTask) :
    List BackgroundTask :=
  t :: tasks

/-- Model of `updateTask`: merges the update into the task with the matching id. -/
def updateTask (tasks : List BackgroundTask) (id : String) (u : TaskUpdate) :
    List BackgroundTask :=
  tasks.map fun t => if t.id = id then applyUpdate t u else t

/-- Model of `removeTask`. -/
def removeTask (tasks : List BackgroundTask) (id : String) :
    List BackgroundTask :=
  tasks.filter fun t => !(t.id == id)

/-- Model of `clearCompletedTasks`: keeps exactly the tasks whose status is running. -/
def clearCompletedTasks (tasks : List BackgroundTask) : List BackgroundTask :=
  tasks.filter fun t => t.status == TaskStatus.running

/-- The task created by `executeVideoGenerationTool`. -/
def videoInitialTask (id : String) : BackgroundTask :=
  ⟨id, "generate_video", TaskStatus.running, 5, "Starting video generation...", none⟩

/-- The i-th (0-based) update of the video polling loop: the local variable
holds `min (10 + 15 * (i+1)) 90` after `progress = Math.min(progress + 15, 90)`
starting from 10. -/
def videoPollUpdate (i : Nat) : TaskUpdate :=
  { progress := some (min (10 + 15 * ((i : ℚ) + 1)) 90),
    message := some "Processing video..." }

def videoPollUpdates (k : Nat) : List TaskUpdate :=
  (List.range k).map videoPollUpdate

def videoCompletedUpdate (url : String) : TaskUpdate :=
  { status := some TaskStatus.completed, progress := some 100,
    message := some "Video is ready!", result := some ⟨ResultKind.download, url⟩ }

/-- The `catch` branch: it sets no progress field. -/
def videoFailedUpdate (msg : String) : TaskUpdate :=
  { status := some TaskStatus.failed,
    message := some s!"Failed to generate video: {msg}" }

/-- The whole update sequence a video execution applies to its task: `k`
polling updates, then either completion or failure (an exception after `k`
polls produces exactly the `success := false` sequence). -/
def videoUpdates (k : Nat) (success : Bool) (url msg : String) :
    List TaskUpdate :=
  videoPollUpdates k ++ [if success then videoCompletedUpdate url else videoFailedUpdate msg]

/-- The task created by `executePresentationGenerationTool`. -/
def presInitialTask (id : String) : BackgroundTask :=
  ⟨id, "create_business_presentation", TaskStatus.running, 0,
   "Generating presentation outline...", none⟩

def presOutlineUpdate : TaskUpdate :=
  { progress := some 10, message := some "Generating assets..." }

/-- The update after asset step `i+1` of `2 * n` (an image or a narration for
one of the `n` slides): `10 + (currentAssetStep / totalAssetSteps) * 80`.
The message text (which names the slide) is passed in. -/
def presAssetUpdate (n i : Nat) (msg : String) : TaskUpdate :=
  { progress := some (10 + (((i : ℚ) + 1) / (2 * (n : ℚ))) * 80),
    message := some msg }

def presAssetUpdates (n : Nat) (msgs : Nat → String) : List TaskUpdate :=
  (List.range (2 * n)).map fun i => presAssetUpdate n i (msgs i)

def presAssembleUpdate : TaskUpdate :=
  { progress := some 95, message := some "Assembling presentation..." }

def presCompletedUpdate (payload : String) : TaskUpdate :=
  { status := some TaskStatus.completed, progress := some 100,
    message := some "Presentation is ready!", result := some ⟨ResultKind.view, payload⟩ }

/-- The `catch` branch: it sets no progress field. -/
def presFailedUpdate (msg : String) : TaskUpdate :=
  { status := some TaskStatus.failed,
    message := some s!"Failed to create presentation: {msg}" }

def presSuccessUpdates (n : Nat) (msgs : Nat → String) (payload : String) :
    List TaskUpdate :=
  presOutlineUpdate :: (presAssetUpdates n msgs ++ [presAssembleUpdate, presCompletedUpdate payload])

/-- The update sequence of a presentation execution over `n` slides: the
successful sequence, or (`cut = some j`) an exception after `j` of its
updates followed by the failure update. -/
def presUpdates (n : Nat) (msgs : Nat → String) (payload : String)
    (cut : Option Nat) (failMsg : String) : List TaskUpdate :=
  match cut with
  | none => presSuccessUpdates n msgs payload
  | some j => (presSuccessUpdates n msgs payload).take j ++ [presFailedUpdate failMsg]

/-- The progress values a task goes through under a sequence of updates,
including its initial value. -/
def progressTrace (t : BackgroundTask) (us : List TaskUpdate) : List ℚ :=
  (us.scanl applyUpdate t).map (·.progress)

/-! ## Status poller (`pollForResult`)

`pollForResult` drives a `setInterval` whose async callback shares one
`attempts` counter.  Each firing runs the callback synchronous prefix: if
`attempts >= maxAttempts` it clears the interval, sends the timeout
notification and returns (no fetch, no increment); otherwise it issues one
status fetch and suspends.  A suspended callback resumes when its fetch
settles: a non-pending status clears the interval and sends the outcome
notification — even when the interval was already cleared by another
callback — while any other outcome (thrown fetch, non-ok response, missing
or pending status) does nothing; either way `attempts` is incremented only
at this point, after the awaits.  `clearInterval` stops future firings but
not callbacks already in flight, and firings are not gated on the previous
callback having finished, so callbacks overlap whenever a fetch takes
longer than the 2-second interval.  The model makes every interleaving
explicit: `tick` is one interval firing, `resolve obs` is one in-flight
callback settling with observation `obs`. -/

def pollMaxAttempts : Nat := 15

def pollIntervalMs : Nat := 2000

/-- What one status fetch yields. -/
inductive PollObs
  /-- The fetch threw: logged, polling continues. -/
  | netFail
  /-- Non-ok response, or ok with no status or status still pending. -/
  | pendingOrNotOk
  /-- Ok with a terminal (non-pending) status and message. -/
  | done (status : String) (message : String)
deriving DecidableEq, Repr

def isDone : PollObs → Bool
  | .done _ _ => true
  | _ => false

def pollTimeoutMsg (toolName : String) : String :=
  s!"SYSTEM NOTIFICATION: The tool \x27{toolName}\x27 timed out after {pollMaxAttempts * pollIntervalMs / 1000} seconds. Please inform the user that the action could not be completed."

def pollDoneMsg (toolName status message : String) : String :=
  s!"SYSTEM NOTIFICATION: The tool \x27{toolName}\x27 has completed with status: {status}. The message is: {message}. Please inform the user of this result in a natural, conversational way."

structure PollState where
  /-- The shared `attempts` counter (incremented only after the awaits). -/
  attempts : Nat
  /-- Whether `clearInterval` has been called. -/
  cleared : Bool
  /-- The number of callbacks suspended on their fetch. -/
  inFlight : Nat
  /-- Status requests issued so far. -/
  requests : Nat
  /-- Notifications sent via `client.send`, in order. -/
  sentMessages : List String
deriving DecidableEq, Repr

def pollInit : PollState := ⟨0, false, 0, 0, []⟩

/-- A scheduler event: one interval firing, or one in-flight fetch
settling. -/
inductive PollEvent
  | tick
  | resolve (obs : PollObs)
deriving DecidableEq, Repr

/-- One event of the polling run.  A `tick` after `clearInterval`, or a
`resolve` with no callback in flight, cannot occur and is a no-op. -/
def pollStep (toolName : String) (st : PollState) : PollEvent → PollState
  | .tick =>
    if st.cleared then st
    else if pollMaxAttempts ≤ st.attempts then
      { st with cleared := true,
                sentMessages := st.sentMessages ++ [pollTimeoutMsg toolName] }
    else
      { st with requests := st.requests + 1, inFlight := st.inFlight + 1 }
  | .resolve obs =>
    if st.inFlight = 0 then st
    else
      match obs with
      | .done s m =>
        { st with inFlight := st.inFlight - 1, attempts := st.attempts + 1,
                  cleared := true,
                  sentMessages := st.sentMessages ++ [pollDoneMsg toolName s m] }
      | _ => { st with inFlight := st.inFlight - 1, attempts := st.attempts + 1 }

def pollRun (toolName : String) (es : List PollEvent) : PollState :=
  es.foldl (pollStep toolName) pollInit

/-- The no-overlap schedule: in round `i` the interval fires once and that
callback fetch settles (with observation `obs i`) before the next firing —
the fetch-faster-than-2-seconds regime. -/
def seqSchedule (obs : Nat → PollObs) : Nat → List PollEvent
  | 0 => []
  | k + 1 => seqSchedule obs k ++ [PollEvent.tick, PollEvent.resolve (obs k)]

/-! ## Ledger lemmas -/

lemma updateLastTurn_concat (l : List ConversationTurn) (x : ConversationTurn)
    (f : ConversationTurn → ConversationTurn) :
    updateLastTurn (l ++ [x]) f = l ++ [f x] := by
  simp [updateLastTurn, List.getLast?_concat, List.dropLast_concat]

lemma openCount_append (l₁ l₂ : List ConversationTurn) :
    openCount (l₁ ++ l₂) = openCount l₁ + openCount l₂ := by
  simp [openCount, List.filter_append]

lemma openCount_eq_zero {l : List ConversationTurn} :
    openCount l = 0 ↔ ∀ t ∈ l, t.isFinal = true := by
  simp [openCount, List.length_eq_zero, List.filter_eq_nil_iff]

lemma mem_of_getLast?_eq {ts : List ConversationTurn} {x : ConversationTurn}
    (hx : ts.getLast? = some x) : x ∈ ts := by
  rcases List.eq_nil_or_concat' ts with rfl | ⟨l, y, rfl⟩
  · simp at hx
  · rw [List.getLast?_concat] at hx
    cases hx
    exact List.mem_append_right _ (by simp)

lemma all_final_of {ts : List ConversationTurn}
    (h2 : ∀ t ∈ ts.dropLast, t.isFinal = true)
    (hlast : ∀ x, ts.getLast? = some x → x.isFinal = true) :
    ∀ t ∈ ts, t.isFinal = true := by
  rcases List.eq_nil_or_concat' ts with rfl | ⟨l, x, rfl⟩
  · simp
  · rw [List.dropLast_concat] at h2
    intro u hu
    rcases List.mem_append.1 hu with h' | h'
    · exact h2 u h'
    · have hux : u = x := by simpa using h'
      subst hux
      exact hlast u (List.getLast?_concat l)

/-- All turns carry role `r` and every turn before the last is final.  This
is the invariant single-role delta streams maintain. -/
def GoodLedger (r : Role) (ts : List ConversationTurn) : Prop :=
  (∀ t ∈ ts, t.role = r) ∧ (∀ t ∈ ts.dropLast, t.isFinal = true)

lemma good_updateLast {r : Role} {ts : List ConversationTurn}
    {f : ConversationTurn → ConversationTurn} (h : GoodLedger r ts)
    (hf : ∀ t, (f t).role = t.role) : GoodLedger r (updateLastTurn ts f) := by
  rcases List.eq_nil_or_concat' ts with rfl | ⟨l, x, rfl⟩
  · simpa [updateLastTurn] using h
  · obtain ⟨h1, h2⟩ := h
    rw [updateLastTurn_concat]
    refine ⟨?_, ?_⟩
    · intro t ht
      rcases List.mem_append.1 ht with h' | h'
      · exact h1 t (List.mem_append_left _ h')
      · have : t = f x := by simpa using h'
        subst this
        rw [hf]
        exact h1 x (List.mem_append_right _ (by simp))
    · rw [List.dropLast_concat]
      rw [List.dropLast_concat] at h2
      exact h2

lemma good_addTurn {r : Role} {ts : List ConversationTurn} {t : ConversationTurn}
    (h : GoodLedger r ts) (hrole : t.role = r)
    (hlast : ∀ x, ts.getLast? = some x → x.isFinal = true) :
    GoodLedger r (addTurn ts t) := by
  obtain ⟨h1, h2⟩ := h
  refine ⟨?_, ?_⟩
  · intro u hu
    rcases List.mem_append.1 hu with h' | h'
    · exact h1 u h'
    · have : u = t := by simpa using h'
      subst this; exact hrole
  · rw [show addTurn ts t = ts ++ [t] from rfl, List.dropLast_concat]
    exact all_final_of h2 hlast

lemma good_step {r : Role} {ts : List ConversationTurn} {e : LedgerEvent}
    (h : GoodLedger r ts) (he : eventRole e = none ∨ eventRole e = some r) :
    GoodLedger r (stepLedger ts e) := by
  have hfinal : ∀ last, ts.getLast? = some last →
      ¬(last.role = r ∧ last.isFinal = false) →
      ∀ x, ts.getLast? = some x → x.isFinal = true := by
    intro last hlast hc x hx
    rw [hlast] at hx
    cases hx
    have hrole : last.role = r := h.1 last (mem_of_getLast?_eq hlast)
    rcases Bool.eq_false_or_eq_true last.isFinal with hfi | hfi
    · exact hfi
    · exact absurd ⟨hrole, hfi⟩ hc
  cases e with
  | inputDelta t f =>
    have hr : r = Role.user := by
      rcases he with h' | h' <;> simp [eventRole] at h'
      exact h'.symm
    subst hr
    rcases hlast : ts.getLast? with _ | last
    · rw [List.getLast?_eq_none_iff] at hlast
      subst hlast
      exact good_addTurn h rfl (by simp)
    · simp only [stepLedger, handleInputTranscription, hlast]
      by_cases hc : last.role = Role.user ∧ last.isFinal = false
      · rw [if_pos hc]
        exact good_updateLast h fun t => rfl
      · rw [if_neg hc]
        exact good_addTurn h rfl (hfinal last hlast hc)
  | outputDelta t f =>
    have hr : r = Role.agent := by
      rcases he with h' | h' <;> simp [eventRole] at h'
      exact h'.symm
    subst hr
    rcases hlast : ts.getLast? with _ | last
    · rw [List.getLast?_eq_none_iff] at hlast
      subst hlast
      exact good_addTurn h rfl (by simp)
    · simp only [stepLedger, handleOutputTranscription, hlast]
      by_cases hc : last.role = Role.agent ∧ last.isFinal = false
      · rw [if_pos hc]
        exact good_updateLast h fun t => rfl
      · rw [if_neg hc]
        exact good_addTurn h rfl (hfinal last hlast hc)
  | contentDelta t c =>
    have hr : r = Role.agent := by
      rcases he with h' | h' <;> simp [eventRole] at h'
      exact h'.symm
    subst hr
    by_cases hempty : t = "" ∧ c = []
    · simpa [stepLedger, handleContent, if_pos hempty] using h
    · rcases hlast : ts.getLast? with _ | last
      · rw [List.getLast?_eq_none_iff] at hlast
        subst hlast
        simp only [stepLedger, handleContent, if_neg hempty, List.getLast?_nil]
        exact good_addTurn h rfl (by simp)
      · simp only [stepLedger, handleContent, if_neg hempty, hlast]
        by_cases hc : last.role = Role.agent ∧ last.isFinal = false
        · rw [if_pos hc]
          exact good_updateLast h fun t => rfl
        · rw [if_neg hc]
          exact good_addTurn h rfl (hfinal last hlast hc)
  | turnComplete =>
    rcases hlast : ts.getLast? with _ | last
    · simpa [stepLedger, handleTurnComplete, hlast] using h
    · simp only [stepLedger, handleTurnComplete, hlast]
      by_cases hc : last.isFinal = false
      · rw [if_pos hc]
        exact good_updateLast h fun t => rfl
      · rw [if_neg hc]
        exact h

lemma run_good {r : Role} {ts : List ConversationTurn} {es : List LedgerEvent}
    (h : GoodLedger r ts)
    (he : ∀ e ∈ es, eventRole e = none ∨ eventRole e = some r) :
    GoodLedger r (runLedger ts es) := by
  induction es generalizing ts with
  | nil => exact h
  | cons e es ih =>
    exact ih (good_step h (he e (by simp))) fun e' h' => he e' (by simp [h'])

lemma openCount_le_one_of_good {r : Role} {ts : List ConversationTurn}
    (h : GoodLedger r ts) : openCount ts ≤ 1 := by
  rcases List.eq_nil_or_concat' ts with rfl | ⟨l, x, rfl⟩
  · simp [openCount]
  · have h2 := h.2
    rw [List.dropLast_concat] at h2
    rw [openCount_append]
    have hl : openCount l = 0 := openCount_eq_zero.mpr h2
    have hx : openCount [x] ≤ 1 := by
      rcases Bool.eq_false_or_eq_true x.isFinal with hfi | hfi <;> simp [openCount, hfi]
    omega

/-- C4 (counterexample).  The claim states that a turn-complete event leaves
zero open turns in every reachable ledger state.  It fails: an interleaving
that opens a user turn and then an agent turn leaves the user turn open,
because `handleTurnComplete` finalises only the most recent turn.  On the
reachable state produced by `inputDelta "a" (non-final)` then
`outputDelta "b" (non-final)`, processing turn-complete leaves one open
turn. -/
theorem turnComplete_leaves_stale_open_turn :
    openCount (runLedger []
      [LedgerEvent.inputDelta "a" false, LedgerEvent.outputDelta "b" false,
       LedgerEvent.turnComplete]) = 1 := by
  decide

/-- C4 (amended).  A turn-complete event finalises the most recent turn, so
it leaves zero open turns in every state in which all open turns sit at the
last position (in particular whenever at most the most recent turn is
open). -/
theorem turnComplete_closes_all_when_only_last_open
    (ts : List ConversationTurn) (h : ∀ t ∈ ts.dropLast, t.isFinal = true) :
    openCount (handleTurnComplete ts) = 0 := by
  rcases List.eq_nil_or_concat' ts with rfl | ⟨l, x, rfl⟩
  · simp [handleTurnComplete, openCount]
  · rw [List.dropLast_concat] at h
    have hl : openCount l = 0 := openCount_eq_zero.mpr h
    simp only [handleTurnComplete, List.getLast?_concat]
    by_cases hx : x.isFinal = false
    · rw [if_pos hx, updateLastTurn_concat, openCount_append]
      have hone : openCount [{ x with isFinal := true }] = 0 := by simp [openCount]
      omega
    · rw [if_neg hx, openCount_append]
      have hxf : x.isFinal = true := by simpa using hx
      have hone : openCount [x] = 0 := by simp [openCount, hxf]
      omega

/-- Witness for the amended C4 theorem at a concrete one-turn ledger. -/
theorem turnComplete_closes_all_when_only_last_open_witness :
    (∀ t ∈ ([⟨Role.user, "hi", false, []⟩] :
        List ConversationTurn).dropLast, t.isFinal = true) ∧
    openCount (handleTurnComplete [⟨Role.user, "hi", false, []⟩]) = 0 :=
  ⟨by decide,
   turnComplete_closes_all_when_only_last_open
     [⟨Role.user, "hi", false, []⟩] (by decide)⟩

/-- C5 (counterexample).  The claim states that at most one turn per role is
open in every reachable state.  It fails: a user delta, an agent delta and a
second user delta (all non-final) produce a ledger with two open user turns,
because a delta appends only to the ledgers most recent turn. -/
theorem interleaving_opens_two_user_turns :
    ((runLedger []
        [LedgerEvent.inputDelta "a" false, LedgerEvent.outputDelta "b" false,
         LedgerEvent.inputDelta "c" false]).filter
      fun t => t.role = Role.user ∧ t.isFinal = false).length = 2 := by
  decide

/-- C5 (amended).  A delta appends to the most recent turn only, so the
one-open-turn-per-role invariant holds only when roles do not interleave
while a turn is open: for every event sequence whose deltas all carry one
fixed role, at most one turn of the ledger is open at any time (hence at
most one per role). -/
theorem single_role_at_most_one_open (r : Role) (es : List LedgerEvent)
    (h : ∀ e ∈ es, eventRole e = none ∨ eventRole e = some r) :
    openCount (runLedger [] es) ≤ 1 :=
  openCount_le_one_of_good (run_good ⟨by simp, by simp⟩ h)

/-- Witness for the amended C5 theorem at a concrete single-role sequence. -/
theorem single_role_at_most_one_open_witness :
    (∀ e ∈ [LedgerEvent.inputDelta "x" false, LedgerEvent.turnComplete,
        LedgerEvent.inputDelta "y" false],
      eventRole e = none ∨ eventRole e = some Role.user) ∧
    openCount (runLedger []
      [LedgerEvent.inputDelta "x" false, LedgerEvent.turnComplete,
       LedgerEvent.inputDelta "y" false]) ≤ 1 :=
  ⟨by decide,
   single_role_at_most_one_open Role.user
     [LedgerEvent.inputDelta "x" false, LedgerEvent.turnComplete,
      LedgerEvent.inputDelta "y" false] (by decide)⟩

lemma string_empty_append (s : String) : "" ++ s = s := by
  apply String.ext
  simp [String.append]

lemma chunk_run_acc : ∀ (cs : List String) (acc : String), cs ≠ [] →
    runLedger [⟨Role.user, acc, false, []⟩] (chunkEvents cs) =
      [⟨Role.user, cs.foldl (· ++ ·) acc, true, []⟩]
  | [], _, h => absurd rfl h
  | [c], acc, _ => by
    simp [chunkEvents, runLedger, stepLedger, handleInputTranscription,
      updateLastTurn]
  | c :: c2 :: cs, acc, _ => by
    have ih := chunk_run_acc (c2 :: cs) (acc ++ c) (by simp)
    simp only [chunkEvents]
    rw [runLedger, List.foldl_cons]
    have hstep : stepLedger [⟨Role.user, acc, false, []⟩]
        (LedgerEvent.inputDelta c false) = [⟨Role.user, acc ++ c, false, []⟩] := by
      simp [stepLedger, handleInputTranscription, updateLastTurn]
    rw [hstep]
    rw [runLedger] at ih
    rw [ih]
    rfl

/-- C6.  For every way of splitting one user utterance into transcript
chunks (non-final deltas followed by one final delta) the ledger ends with
exactly one final user turn whose text is the concatenation of the chunks —
so the merged text is independent of the chunk boundaries. -/
theorem transcript_chunking_invariance (chunks : List String)
    (h : chunks ≠ []) :
    runLedger [] (chunkEvents chunks) =
      [⟨Role.user, chunks.foldl (· ++ ·) "", true, []⟩] := by
  cases chunks with
  | nil => exact absurd rfl h
  | cons c cs =>
    cases cs with
    | nil =>
      simp [chunkEvents, runLedger, stepLedger, handleInputTranscription,
        addTurn, string_empty_append]
    | cons c2 cs2 =>
      simp only [chunkEvents]
      rw [runLedger, List.foldl_cons]
      have hstep : stepLedger [] (LedgerEvent.inputDelta c false) =
          [⟨Role.user, c, false, []⟩] := by
        simp [stepLedger, handleInputTranscription, addTurn]
      rw [hstep]
      have hrec := chunk_run_acc (c2 :: cs2) c (by simp)
      rw [runLedger] at hrec
      rw [hrec]
      simp [List.foldl_cons, string_empty_append]

/-- Witness for C6: the scenario from the claim, chunks "Hel", "lo ",
"world" with isFinal = false, false, true on an empty ledger, yields one
final user turn with text "Hello world". -/
theorem transcript_chunking_invariance_witness :
    (["Hel", "lo ", "world"] : List String) ≠ [] ∧
    runLedger [] (chunkEvents ["Hel", "lo ", "world"]) =
      [⟨Role.user, "Hello world", true, []⟩] := by
  refine ⟨by decide, ?_⟩
  rw [transcript_chunking_invariance ["Hel", "lo ", "world"] (by decide)]
  rfl

/-! ## Dispatcher lemmas -/

lemma pushAndCheck_invoked (n : Nat) (st : DispatchState) (r : FunctionResponse) :
    (pushAndCheck n st r).invoked = st.invoked := by
  unfold pushAndCheck
  split <;> rfl

lemma pushAndCheck_responses (n : Nat) (st : DispatchState) (r : FunctionResponse) :
    (pushAndCheck n st r).responses = st.responses ++ [r] := by
  unfold pushAndCheck
  split <;> rfl

lemma sensitive_not_adminRejected {email : Option String} {name : String}
    (h : name ∈ SENSITIVE_TOOLS) : adminRejected email name = false := by
  have hadm : name ∉ ADMIN_ONLY_TOOLS := by
    fin_cases h <;> decide
  cases email with
  | none => rfl
  | some e => simp [adminRejected, hadm]

lemma sensitive_go (n : Nat) (email : Option String) :
    ∀ (batch : List FunctionCall) (conf : Option FunctionCall)
      (drp : List FunctionCall),
      (∀ fc ∈ batch, fc.name ∈ SENSITIVE_TOOLS) → batch ≠ [] →
      batch.foldl (processCall n email) ⟨[], [], [], conf, drp, []⟩ =
        ⟨[], [], [], batch.getLast?, drp ++ conf.toList ++ batch.dropLast, []⟩
  | [], _, _, _, h2 => absurd rfl h2
  | [fc], conf, drp, h1, _ => by
    have hmem : fc.name ∈ SENSITIVE_TOOLS := h1 fc (by simp)
    have hadm : adminRejected email fc.name = false := sensitive_not_adminRejected hmem
    simp [processCall, hadm, hmem]
  | fc :: fc2 :: rest, conf, drp, h1, _ => by
    have hmem : fc.name ∈ SENSITIVE_TOOLS := h1 fc (by simp)
    have hadm : adminRejected email fc.name = false := sensitive_not_adminRejected hmem
    have ih := sensitive_go n email (fc2 :: rest) (some fc) (drp ++ conf.toList)
      (fun g hg => h1 g (by simp [hg])) (by simp)
    rw [List.foldl_cons]
    have hone : processCall n email ⟨[], [], [], conf, drp, []⟩ fc =
        ⟨[], [], [], some fc, drp ++ conf.toList, []⟩ := by
      simp [processCall, hadm, hmem]
    rw [hone, ih]
    simp [List.getLast?_cons_cons, List.dropLast_cons₂, List.append_assoc]

/-- C1 (code slip, evaluated).  A batch consisting of one admin-restricted
call from a caller with a non-admin email collects its single response entry
but `onToolCall` never calls `client.sendToolResponse` for it: the
restricted-rejection push has no completion check, and with nothing pending
and no confirmation stored, no later step can send it.  The claimed
exactly-one-aggregate-response property fails on this input. -/
theorem adminRejected_batch_never_sent :
    processBatch (some "someone@example.com") [⟨"call-1", "generate_video"⟩] =
      { responses := [restrictedResponse ⟨"call-1", "generate_video"⟩],
        sent := [], pending := [], confirmation := none, dropped := [],
        invoked := [] } := by
  rfl

/-- C2 (counterexample).  Two sensitive calls in one batch are not queued
FIFO: the second `requestConfirmation` overwrites the first, so only the
second call is ever presented, and after the user denies it the batch ends
with the first call unresolved (no response entry, nothing pending, no send)
— its approve/deny continuations are resolved zero times, not once. -/
theorem secondSensitiveCall_overwrites_pending :
    processBatch (some "user@example.com")
        [⟨"1", "send_gmail_message"⟩, ⟨"2", "send_whatsapp_message"⟩] =
      { responses := [], sent := [], pending := [],
        confirmation := some ⟨"2", "send_whatsapp_message"⟩,
        dropped := [⟨"1", "send_gmail_message"⟩], invoked := [] } ∧
    denyConfirmation 2 (processBatch (some "user@example.com")
        [⟨"1", "send_gmail_message"⟩, ⟨"2", "send_whatsapp_message"⟩]) =
      { responses := [cancelledResponse ⟨"2", "send_whatsapp_message"⟩],
        sent := [], pending := [], confirmation := none,
        dropped := [⟨"1", "send_gmail_message"⟩], invoked := [] } :=
  ⟨rfl, rfl⟩

/-- C2 (amended).  At most one confirmation is stored at a time, but a batch
of sensitive calls is resolved last-wins, not FIFO: after the synchronous
loop the slot holds exactly the last call of the batch, every earlier call
was dropped (its continuations lost), and no response, send or execution has
happened. -/
theorem sensitive_batch_lastWins (email : Option String)
    (batch : List FunctionCall)
    (h1 : ∀ fc ∈ batch, fc.name ∈ SENSITIVE_TOOLS) (h2 : batch ≠ []) :
    processBatch email batch =
      { responses := [], sent := [], pending := [],
        confirmation := batch.getLast?, dropped := batch.dropLast,
        invoked := [] } := by
  have h := sensitive_go batch.length email batch none [] h1 h2
  simpa [processBatch, initDispatch] using h

/-- Witness for the amended C2 theorem on a one-call sensitive batch. -/
theorem sensitive_batch_lastWins_witness :
    (∀ fc ∈ [(⟨"1", "send_gmail_message"⟩ : FunctionCall)],
      fc.name ∈ SENSITIVE_TOOLS) ∧
    processBatch (some "user@example.com") [⟨"1", "send_gmail_message"⟩] =
      { responses := [], sent := [], pending := [],
        confirmation := some ⟨"1", "send_gmail_message"⟩, dropped := [],
        invoked := [] } := by
  refine ⟨by decide, ?_⟩
  have h := sensitive_batch_lastWins (some "user@example.com")
    [⟨"1", "send_gmail_message"⟩] (by decide) (by decide)
  simpa using h

/-- The response entry (if any) a call contributes during the synchronous
loop: a restricted rejection, nothing yet for sensitive or asynchronous
calls, the canned acknowledgement for native tools. -/
def syncResponse (email : Option String) (fc : FunctionCall) :
    Option FunctionResponse :=
  if adminRejected email fc.name then some (restrictedResponse fc)
  else if SENSITIVE_TOOLS.contains fc.name then none
  else if NATIVE_GEMINI_TOOLS.contains fc.name then some (nativeResponse fc)
  else none

/-- Whether the loop starts the execution strategy of a call: not
admin-rejected and not held behind a confirmation. -/
def startsExec (email : Option String) (fc : FunctionCall) : Bool :=
  !(adminRejected email fc.name) && !(SENSITIVE_TOOLS.contains fc.name)

lemma processCall_invoked (n : Nat) (email : Option String)
    (st : DispatchState) (fc : FunctionCall) :
    (processCall n email st fc).invoked =
      st.invoked ++ (if startsExec email fc then [fc] else []) := by
  unfold processCall startsExec
  by_cases h1 : adminRejected email fc.name = true
  · simp [h1]
  · replace h1 : adminRejected email fc.name = false := by simpa using h1
    by_cases h2 : fc.name ∈ SENSITIVE_TOOLS
    · simp [h1, h2]
    · by_cases h3 : fc.name ∈ NATIVE_GEMINI_TOOLS
      · simp [h1, h2, h3, pushAndCheck_invoked]
      · simp [h1, h2, h3]

lemma processCall_responses (n : Nat) (email : Option String)
    (st : DispatchState) (fc : FunctionCall) :
    (processCall n email st fc).responses =
      st.responses ++ (syncResponse email fc).toList := by
  unfold processCall syncResponse
  by_cases h1 : adminRejected email fc.name = true
  · simp [h1]
  · replace h1 : adminRejected email fc.name = false := by simpa using h1
    by_cases h2 : fc.name ∈ SENSITIVE_TOOLS
    · simp [h1, h2]
    · by_cases h3 : fc.name ∈ NATIVE_GEMINI_TOOLS
      · simp [h1, h2, h3, pushAndCheck_responses]
      · simp [h1, h2, h3]

lemma foldl_invoked (n : Nat) (email : Option String) :
    ∀ (batch : List FunctionCall) (st : DispatchState),
      (batch.foldl (processCall n email) st).invoked =
        st.invoked ++ batch.filter (startsExec email)
  | [], st => by simp
  | fc :: rest, st => by
    rw [List.foldl_cons, foldl_invoked n email rest (processCall n email st fc),
      processCall_invoked, List.filter_cons]
    cases hb : startsExec email fc <;> simp [hb, List.append_assoc]

lemma foldl_responses (n : Nat) (email : Option String) :
    ∀ (batch : List FunctionCall) (st : DispatchState),
      (batch.foldl (processCall n email) st).responses =
        st.responses ++ batch.filterMap (syncResponse email)
  | [], st => by simp
  | fc :: rest, st => by
    rw [List.foldl_cons, foldl_responses n email rest (processCall n email st fc),
      processCall_responses, List.filterMap_cons]
    cases hb : syncResponse email fc <;> simp [hb, List.append_assoc]

/-- C3 (counterexample).  The admin gate short-circuits on a falsy
`user?.email`: a caller with no authenticated user (or no email) is NOT
rejected — the restricted tool `generate_video` is dispatched and its
execution strategy starts, contradicting the claim that every non-admin
caller gets a restricted error and no execution. -/
theorem missing_email_skips_admin_gate :
    processBatch none [⟨"call-1", "generate_video"⟩] =
      { responses := [], sent := [],
        pending := [⟨"call-1", "generate_video"⟩], confirmation := none,
        dropped := [], invoked := [⟨"call-1", "generate_video"⟩] } := by
  rfl

/-- C3 (amended).  A call is admin-rejected iff the caller has a nonempty
email different from the administrator address and the tool is
admin-restricted; such a call gets the restricted error entry and its
execution strategy never runs.  Callers without a user or email bypass the
gate entirely. -/
theorem admin_gate_characterization (email : Option String)
    (batch : List FunctionCall) (fc : FunctionCall) :
    (adminRejected email fc.name = true ↔
      ∃ e, email = some e ∧ e ≠ "" ∧ fc.name ∈ ADMIN_ONLY_TOOLS ∧
        e ≠ ADMIN_EMAIL) ∧
    (fc ∈ batch → adminRejected email fc.name = true →
      restrictedResponse fc ∈ (processBatch email batch).responses ∧
      fc ∉ (processBatch email batch).invoked) := by
  constructor
  · cases email with
    | none => simp [adminRejected]
    | some e => simp [adminRejected, and_assoc]
  · intro hmem hrej
    constructor
    · rw [processBatch, foldl_responses]
      simp only [initDispatch, List.nil_append]
      exact List.mem_filterMap.mpr ⟨fc, hmem, by simp [syncResponse, hrej]⟩
    · rw [processBatch, foldl_invoked]
      simp only [initDispatch, List.nil_append]
      intro hin
      have hpred := (List.mem_filter.1 hin).2
      simp [startsExec, hrej] at hpred

/-- Witness for the amended C3 theorem on a concrete rejected call. -/
theorem admin_gate_characterization_witness :
    ((⟨"1", "generate_video"⟩ : FunctionCall) ∈
        [(⟨"1", "generate_video"⟩ : FunctionCall)]) ∧
    adminRejected (some "x@y.z") "generate_video" = true ∧
    restrictedResponse ⟨"1", "generate_video"⟩ ∈
      (processBatch (some "x@y.z") [⟨"1", "generate_video"⟩]).responses ∧
    (⟨"1", "generate_video"⟩ : FunctionCall) ∉
      (processBatch (some "x@y.z") [⟨"1", "generate_video"⟩]).invoked := by
  have h := (admin_gate_characterization (some "x@y.z")
    [⟨"1", "generate_video"⟩] ⟨"1", "generate_video"⟩).2 (by decide) (by decide)
  exact ⟨by decide, by decide, h.1, h.2⟩

/-! ## Keep-alive claims -/

/-- C7 (counterexample).  The keep-alive tick has no outbound-activity
check: while connected it sends the silent frame even on a tick during which
other outbound traffic occurred, contradicting the claimed "only if no other
outbound activity has occurred since the previous tick". -/
theorem keepAlive_sends_despite_activity :
    keepAliveTick ClientStatus.connected true ≠ [] := by
  decide

/-- C7 (amended).  At every 30-second tick the driver sends exactly one
minimal silent frame (320 zero bytes, pcm mime tag) whenever the client
status is connected — unconditionally, regardless of other outbound
activity — and sends nothing when the status is not connected. -/
theorem keepAlive_tick_behavior (act : Bool) :
    keepAliveTick ClientStatus.connected act = [silentChunk] ∧
    silentChunk.mimeType = "audio/pcm;rate=16000" ∧
    silentChunk.data.length = 320 ∧
    (∀ b ∈ silentChunk.data, b = 0) ∧
    (∀ s : ClientStatus, s ≠ ClientStatus.connected → keepAliveTick s act = []) := by
  refine ⟨rfl, rfl, List.length_replicate 320 0, ?_, ?_⟩
  · intro b hb
    exact List.eq_of_mem_replicate hb
  · intro s hs
    cases s with
    | connected => exact absurd rfl hs
    | disconnected => rfl
    | connecting => rfl

/-- Witness for the amended C7 theorem with activity present and a
disconnected status. -/
theorem keepAlive_tick_behavior_witness :
    keepAliveTick ClientStatus.connected true = [silentChunk] ∧
    (0 : Nat) ∈ silentChunk.data ∧ (0 : Nat) = 0 ∧
    keepAliveTick ClientStatus.disconnected true = [] := by
  obtain ⟨h1, _, _, h4, h5⟩ := keepAlive_tick_behavior true
  exact ⟨h1, by decide, h4 0 (by decide), h5 ClientStatus.disconnected (by decide)⟩

/-- C10.  `clearCompletedTasks` retains exactly the running tasks —
removing every completed and every failed task — as an untouched
subsequence of the original list (order preserved, no field modified). -/
theorem clearCompletedTasks_spec (tasks : List BackgroundTask) :
    (clearCompletedTasks tasks).Sublist tasks ∧
    (∀ t : BackgroundTask,
      t ∈ clearCompletedTasks tasks ↔ t ∈ tasks ∧ t.status = TaskStatus.running) := by
  refine ⟨List.filter_sublist _, ?_⟩
  intro t
  simp [clearCompletedTasks, List.mem_filter]

/-! ## Poller claims -/

lemma pollStep_stable {toolName : String} {st : PollState}
    (h1 : st.cleared = true) (h2 : st.inFlight = 0) (e : PollEvent) :
    pollStep toolName st e = st := by
  cases e with
  | tick => simp [pollStep, h1]
  | resolve obs => simp [pollStep, h2]

lemma pollRun_append (toolName : String) (es1 es2 : List PollEvent) :
    pollRun toolName (es1 ++ es2) =
      es2.foldl (pollStep toolName) (pollRun toolName es1) := by
  simp [pollRun, List.foldl_append]

lemma seq_run_clean (obs : Nat → PollObs) (toolName : String) :
    ∀ k, k ≤ pollMaxAttempts → (∀ a, a < k → isDone (obs a) = false) →
      pollRun toolName (seqSchedule obs k) = ⟨k, false, 0, k, []⟩
  | 0, _, _ => rfl
  | k + 1, hk, hnd => by
    have ih := seq_run_clean obs toolName k (by omega) fun a ha => hnd a (by omega)
    have hlt : ¬pollMaxAttempts ≤ k := by omega
    rw [show seqSchedule obs (k + 1) =
        seqSchedule obs k ++ [PollEvent.tick, PollEvent.resolve (obs k)] from rfl,
      pollRun_append, ih, List.foldl_cons, List.foldl_cons, List.foldl_nil]
    have htick : pollStep toolName ⟨k, false, 0, k, []⟩ PollEvent.tick =
        ⟨k, false, 1, k + 1, []⟩ := by
      simp [pollStep, hlt]
    rw [htick]
    have hk' := hnd k (by omega)
    cases hobs : obs k with
    | done s m =>
      rw [hobs] at hk'
      simp [isDone] at hk'
    | netFail => simp [pollStep]
    | pendingOrNotOk => simp [pollStep]

lemma seq_run_timeout (obs : Nat → PollObs) (toolName : String)
    (hnd : ∀ a, a < pollMaxAttempts → isDone (obs a) = false) :
    ∀ m, pollMaxAttempts + 1 ≤ m →
      pollRun toolName (seqSchedule obs m) =
        ⟨pollMaxAttempts, true, 0, pollMaxAttempts, [pollTimeoutMsg toolName]⟩ := by
  intro m hm
  induction m, hm using Nat.le_induction with
  | base =>
    rw [show seqSchedule obs (pollMaxAttempts + 1) =
        seqSchedule obs pollMaxAttempts ++
          [PollEvent.tick, PollEvent.resolve (obs pollMaxAttempts)] from rfl,
      pollRun_append, seq_run_clean obs toolName pollMaxAttempts (le_refl _) hnd,
      List.foldl_cons, List.foldl_cons, List.foldl_nil]
    have htick : pollStep toolName
        ⟨pollMaxAttempts, false, 0, pollMaxAttempts, []⟩ PollEvent.tick =
        ⟨pollMaxAttempts, true, 0, pollMaxAttempts, [pollTimeoutMsg toolName]⟩ := by
      simp [pollStep]
    rw [htick, pollStep_stable rfl rfl]
  | succ n hn ih =>
    rw [show seqSchedule obs (n + 1) =
        seqSchedule obs n ++ [PollEvent.tick, PollEvent.resolve (obs n)] from rfl,
      pollRun_append, ih, List.foldl_cons, List.foldl_cons, List.foldl_nil,
      pollStep_stable rfl rfl, pollStep_stable rfl rfl]

lemma seq_run_done (obs : Nat → PollObs) (toolName : String) (j : Nat)
    (hj : j < pollMaxAttempts) (s0 m0 : String)
    (hobs : obs j = PollObs.done s0 m0)
    (hprev : ∀ a, a < j → isDone (obs a) = false) :
    ∀ m, j + 1 ≤ m →
      pollRun toolName (seqSchedule obs m) =
        ⟨j + 1, true, 0, j + 1, [pollDoneMsg toolName s0 m0]⟩ := by
  intro m hm
  induction m, hm using Nat.le_induction with
  | base =>
    have hlt : ¬pollMaxAttempts ≤ j := by omega
    rw [show seqSchedule obs (j + 1) =
        seqSchedule obs j ++ [PollEvent.tick, PollEvent.resolve (obs j)] from rfl,
      pollRun_append, seq_run_clean obs toolName j (by omega) hprev,
      List.foldl_cons, List.foldl_cons, List.foldl_nil]
    have htick : pollStep toolName ⟨j, false, 0, j, []⟩ PollEvent.tick =
        ⟨j, false, 1, j + 1, []⟩ := by
      simp [pollStep, hlt]
    rw [htick, hobs]
    simp [pollStep]
  | succ n hn ih =>
    rw [show seqSchedule obs (n + 1) =
        seqSchedule obs n ++ [PollEvent.tick, PollEvent.resolve (obs n)] from rfl,
      pollRun_append, ih, List.foldl_cons, List.foldl_cons, List.foldl_nil,
      pollStep_stable rfl rfl, pollStep_stable rfl rfl]

/-- C9 (counterexample).  The interval callback increments the shared
`attempts` counter only after its awaited fetch, and `clearInterval` leaves
in-flight callbacks running, so with fetch latency above the 2-second
interval the claimed guarantees fail on concrete schedules: two overlapping
callbacks that both observe a terminal status send TWO outcome
notifications, and sixteen firings whose fetches are all still hanging
issue 16 status requests — more than the claimed 15 — with no termination
and no timeout notification. -/
theorem poll_overlapping_callbacks_break_bound :
    (pollRun "zap"
        [PollEvent.tick, PollEvent.tick,
         PollEvent.resolve (PollObs.done "success" "sent"),
         PollEvent.resolve (PollObs.done "success" "sent")]).sentMessages.length = 2 ∧
    (pollRun "zap" (List.replicate 16 PollEvent.tick)).requests = 16 ∧
    (pollRun "zap" (List.replicate 16 PollEvent.tick)).sentMessages = [] := by
  decide

/-- C9 (amended).  Because `attempts` is shared across overlapping
callbacks and `clearInterval` does not stop in-flight ones, the 15-request
bound, self-termination and single notification are guaranteed only in the
no-overlap regime (every status request settles before the next 2-second
firing).  Under that schedule, run long enough to settle: at most 15 status
requests are made, exactly one notification is sent, the final state is
stable (every further firing or resolution is a no-op — the run has
terminated itself), and when no terminal status was observed in the first
15 attempts the one notification is exactly the timeout notice, after
exactly 15 requests. -/
theorem poll_noOverlap_bounded_single_notice (obs : Nat → PollObs)
    (toolName : String) (m : Nat) (hm : pollMaxAttempts + 1 ≤ m) :
    (pollRun toolName (seqSchedule obs m)).requests ≤ pollMaxAttempts ∧
    (pollRun toolName (seqSchedule obs m)).sentMessages.length = 1 ∧
    (∀ e, pollStep toolName (pollRun toolName (seqSchedule obs m)) e =
        pollRun toolName (seqSchedule obs m)) ∧
    ((∀ a, a < pollMaxAttempts → isDone (obs a) = false) →
      (pollRun toolName (seqSchedule obs m)).sentMessages = [pollTimeoutMsg toolName] ∧
      (pollRun toolName (seqSchedule obs m)).requests = pollMaxAttempts) := by
  by_cases hex : ∃ a, a < pollMaxAttempts ∧ isDone (obs a) = true
  · obtain ⟨hj, hdone⟩ := Nat.find_spec hex
    have hprev : ∀ a, a < Nat.find hex → isDone (obs a) = false := by
      intro a ha
      have hmin := Nat.find_min hex ha
      have ha15 : a < pollMaxAttempts := by omega
      rcases Bool.eq_false_or_eq_true (isDone (obs a)) with ht | hf
      · exact absurd ⟨ha15, ht⟩ hmin
      · exact hf
    cases hobs : obs (Nat.find hex) with
    | netFail =>
      rw [hobs] at hdone
      simp [isDone] at hdone
    | pendingOrNotOk =>
      rw [hobs] at hdone
      simp [isDone] at hdone
    | done s0 m0 =>
      have hrun := seq_run_done obs toolName (Nat.find hex) hj s0 m0 hobs hprev m
        (by omega)
      rw [hrun]
      refine ⟨show Nat.find hex + 1 ≤ pollMaxAttempts by omega, rfl,
        fun e => pollStep_stable rfl rfl e, ?_⟩
      intro hnd
      have hfalse := hnd (Nat.find hex) hj
      rw [hobs] at hfalse
      simp [isDone] at hfalse
  · push_neg at hex
    have hnd : ∀ a, a < pollMaxAttempts → isDone (obs a) = false := by
      intro a ha
      rcases Bool.eq_false_or_eq_true (isDone (obs a)) with ht | hf
      · exact absurd ht (hex a ha)
      · exact hf
    rw [seq_run_timeout obs toolName hnd m hm]
    exact ⟨le_refl _, rfl, fun e => pollStep_stable rfl rfl e, fun _ => ⟨rfl, rfl⟩⟩

/-- Witness for the amended C9 theorem on a sixteen-round run whose fetches
always fail: at most 15 requests and exactly the timeout notification. -/
theorem poll_noOverlap_bounded_single_notice_witness :
    pollMaxAttempts + 1 ≤ 16 ∧
    (pollRun "zap" (seqSchedule (fun _ => PollObs.netFail) 16)).requests ≤
      pollMaxAttempts ∧
    (pollRun "zap" (seqSchedule (fun _ => PollObs.netFail) 16)).sentMessages =
      [pollTimeoutMsg "zap"] := by
  obtain ⟨h1, _, _, h4⟩ :=
    poll_noOverlap_bounded_single_notice (fun _ => PollObs.netFail) "zap" 16 (by decide)
  exact ⟨by decide, h1, (h4 fun a _ => rfl).1⟩

/-! ## Background-task progress claims -/

/-- A well-formed update sequence relative to a current progress value:
whenever an update carries a progress value it is at least the current one
and at most 100. -/
def UpdatesOk : ℚ → List TaskUpdate → Prop
  | _, [] => True
  | p, u :: us =>
    match u.progress with
    | none => UpdatesOk p us
    | some q => p ≤ q ∧ q ≤ 100 ∧ UpdatesOk q us

/-- The progress value after a sequence of updates. -/
def finalProgress (p : ℚ) (us : List TaskUpdate) : ℚ :=
  us.foldl (fun p u => u.progress.getD p) p

lemma finalProgress_append (p : ℚ) (us vs : List TaskUpdate) :
    finalProgress p (us ++ vs) = finalProgress (finalProgress p us) vs := by
  simp [finalProgress, List.foldl_append]

lemma updatesOk_append {p : ℚ} {us vs : List TaskUpdate}
    (h1 : UpdatesOk p us) (h2 : UpdatesOk (finalProgress p us) vs) :
    UpdatesOk p (us ++ vs) := by
  induction us generalizing p with
  | nil => simpa [finalProgress] using h2
  | cons u us ih =>
    cases hu : u.progress with
    | none =>
      simp only [UpdatesOk, hu] at h1 ⊢
      refine ih h1 ?_
      simpa [finalProgress, hu] using h2
    | some q =>
      simp only [UpdatesOk, hu] at h1 ⊢
      refine ⟨h1.1, h1.2.1, ih h1.2.2 ?_⟩
      simpa [finalProgress, hu] using h2

lemma updatesOk_take {p : ℚ} {us : List TaskUpdate} (h : UpdatesOk p us) :
    ∀ j, UpdatesOk p (us.take j) := by
  induction us generalizing p with
  | nil => intro j; simp [UpdatesOk]
  | cons u us ih =>
    intro j
    cases j with
    | zero => simp [UpdatesOk]
    | succ j =>
      rw [List.take_succ_cons]
      cases hu : u.progress with
      | none =>
        simp only [UpdatesOk, hu] at h ⊢
        exact ih h j
      | some q =>
        simp only [UpdatesOk, hu] at h ⊢
        exact ⟨h.1, h.2.1, ih h.2.2 j⟩

lemma progressTrace_cons (t : BackgroundTask) (u : TaskUpdate)
    (us : List TaskUpdate) :
    progressTrace t (u :: us) = t.progress :: progressTrace (applyUpdate t u) us := by
  simp [progressTrace, List.scanl_cons]

lemma progressTrace_head (t : BackgroundTask) (us : List TaskUpdate) :
    (progressTrace t us).head? = some t.progress := by
  cases us <;> simp [progressTrace, List.scanl_cons, List.scanl_nil]

lemma applyUpdate_progress (t : BackgroundTask) (u : TaskUpdate) :
    (applyUpdate t u).progress = u.progress.getD t.progress := rfl

lemma chain_progressTrace :
    ∀ (us : List TaskUpdate) (t : BackgroundTask), UpdatesOk t.progress us →
      List.Chain' (· ≤ ·) (progressTrace t us)
  | [], t, _ => by simp [progressTrace]
  | u :: us, t, h => by
    rw [progressTrace_cons, List.chain'_cons']
    have hnext : UpdatesOk (applyUpdate t u).progress us ∧
        t.progress ≤ (applyUpdate t u).progress := by
      cases hu : u.progress with
      | none =>
        simp only [UpdatesOk, hu] at h
        rw [applyUpdate_progress, hu]
        exact ⟨h, le_refl _⟩
      | some q =>
        simp only [UpdatesOk, hu] at h
        rw [applyUpdate_progress, hu]
        exact ⟨h.2.2, h.1⟩
    refine ⟨?_, chain_progressTrace us (applyUpdate t u) hnext.1⟩
    intro y hy
    rw [progressTrace_head] at hy
    have hye : (applyUpdate t u).progress = y := by simpa using hy
    rw [← hye]
    exact hnext.2

lemma bounds_progressTrace :
    ∀ (us : List TaskUpdate) (t : BackgroundTask), 0 ≤ t.progress →
      t.progress ≤ 100 → UpdatesOk t.progress us →
      ∀ q ∈ progressTrace t us, 0 ≤ q ∧ q ≤ 100
  | [], t, h0, h100, _ => by
    intro q hq
    have : q = t.progress := by simpa [progressTrace] using hq
    rw [this]
    exact ⟨h0, h100⟩
  | u :: us, t, h0, h100, h => by
    rw [progressTrace_cons]
    intro q hq
    rcases List.mem_cons.1 hq with rfl | hq'
    · exact ⟨h0, h100⟩
    · cases hu : u.progress with
      | none =>
        have h' : UpdatesOk t.progress us := by simpa only [UpdatesOk, hu] using h
        have hp : (applyUpdate t u).progress = t.progress := by
          rw [applyUpdate_progress, hu]; rfl
        exact bounds_progressTrace us (applyUpdate t u) (by rw [hp]; exact h0)
          (by rw [hp]; exact h100) (by rw [hp]; exact h') q hq'
      | some v =>
        have h' : t.progress ≤ v ∧ v ≤ 100 ∧ UpdatesOk v us := by
          simpa only [UpdatesOk, hu] using h
        have hp : (applyUpdate t u).progress = v := by
          rw [applyUpdate_progress, hu]; rfl
        exact bounds_progressTrace us (applyUpdate t u)
          (by rw [hp]; exact le_trans h0 h'.1) (by rw [hp]; exact h'.2.1)
          (by rw [hp]; exact h'.2.2) q hq'

/-- The video polling loop's progress variable after `k` iterations. -/
def vprog (k : Nat) : ℚ := if k = 0 then 5 else min (10 + 15 * (k : ℚ)) 90

lemma vprog_le_100 (k : Nat) : vprog k ≤ 100 := by
  unfold vprog
  split
  · norm_num
  · calc min (10 + 15 * (k : ℚ)) 90 ≤ 90 := min_le_right _ _
      _ ≤ 100 := by norm_num

lemma videoOk : ∀ k : Nat,
    UpdatesOk 5 (videoPollUpdates k) ∧
    finalProgress 5 (videoPollUpdates k) = vprog k
  | 0 => ⟨trivial, by simp [videoPollUpdates, finalProgress, vprog]⟩
  | k + 1 => by
    obtain ⟨hok, hfp⟩ := videoOk k
    have hsplit : videoPollUpdates (k + 1) =
        videoPollUpdates k ++ [videoPollUpdate k] := by
      simp [videoPollUpdates, List.range_succ]
    have hstep : vprog k ≤ min (10 + 15 * ((k : ℚ) + 1)) 90 := by
      unfold vprog
      split
      · have h15 : (0 : ℚ) ≤ 15 * ((k : ℚ) + 1) := by positivity
        exact le_min (by linarith) (by norm_num)
      · refine le_min ?_ (min_le_right _ _)
        calc min (10 + 15 * (k : ℚ)) 90 ≤ 10 + 15 * (k : ℚ) := min_le_left _ _
          _ ≤ 10 + 15 * ((k : ℚ) + 1) := by linarith
    constructor
    · rw [hsplit]
      refine updatesOk_append hok ?_
      rw [hfp]
      simp only [UpdatesOk, videoPollUpdate]
      refine ⟨hstep, ?_, trivial⟩
      calc min (10 + 15 * ((k : ℚ) + 1)) 90 ≤ 90 := min_le_right _ _
        _ ≤ 100 := by norm_num
    · rw [hsplit, finalProgress_append, hfp]
      simp only [finalProgress, videoPollUpdate, List.foldl_cons, List.foldl_nil,
        Option.getD_some]
      unfold vprog
      rw [if_neg (Nat.succ_ne_zero k)]
      push_cast
      ring_nf

lemma videoUpdatesOk (k : Nat) (success : Bool) (url msg : String) :
    UpdatesOk 5 (videoUpdates k success url msg) := by
  refine updatesOk_append (videoOk k).1 ?_
  rw [(videoOk k).2]
  cases success with
  | true =>
    simp only [UpdatesOk, videoUpdates, videoCompletedUpdate, if_true]
    exact ⟨vprog_le_100 k, by norm_num, trivial⟩
  | false =>
    simp only [UpdatesOk, videoFailedUpdate, if_false]
    trivial

/-- Progress after `m` of the `2 * n` asset steps. -/
def presProg (n m : Nat) : ℚ := 10 + ((m : ℚ) / (2 * (n : ℚ))) * 80

/-- The first `m` asset updates. -/
def assetsUpTo (n : Nat) (msgs : Nat → String) (m : Nat) : List TaskUpdate :=
  (List.range m).map fun i => presAssetUpdate n i (msgs i)

lemma presProg_zero (n : Nat) : presProg n 0 = 10 := by
  simp [presProg]

lemma presProg_le_90 (n : Nat) : ∀ m, m ≤ 2 * n → presProg n m ≤ 90 := by
  intro m hm
  unfold presProg
  rcases Nat.eq_zero_or_pos n with rfl | hn
  · have hm0 : m = 0 := by omega
    subst hm0
    norm_num
  · have h2n : (0 : ℚ) < 2 * (n : ℚ) := by
      have : (1 : ℚ) ≤ (n : ℚ) := by exact_mod_cast hn
      linarith
    have hdiv : (m : ℚ) / (2 * (n : ℚ)) ≤ 1 := by
      rw [div_le_one h2n]
      exact_mod_cast hm
    have hdiv0 : (0 : ℚ) ≤ (m : ℚ) / (2 * (n : ℚ)) := by positivity
    linarith

lemma presAssetsOk (n : Nat) (msgs : Nat → String) :
    ∀ m, m ≤ 2 * n →
      UpdatesOk (presProg n 0) (assetsUpTo n msgs m) ∧
      finalProgress (presProg n 0) (assetsUpTo n msgs m) = presProg n m
  | 0, _ => ⟨trivial, rfl⟩
  | m + 1, hm => by
    have hn : 0 < n := by omega
    have h2n : (0 : ℚ) < 2 * (n : ℚ) := by
      have : (1 : ℚ) ≤ (n : ℚ) := by exact_mod_cast hn
      linarith
    obtain ⟨hok, hfp⟩ := presAssetsOk n msgs m (by omega)
    have hsplit : assetsUpTo n msgs (m + 1) =
        assetsUpTo n msgs m ++ [presAssetUpdate n m (msgs m)] := by
      simp [assetsUpTo, List.range_succ]
    have hmono : presProg n m ≤ 10 + (((m : ℚ) + 1) / (2 * (n : ℚ))) * 80 := by
      unfold presProg
      have hdiv : (m : ℚ) / (2 * (n : ℚ)) ≤ ((m : ℚ) + 1) / (2 * (n : ℚ)) :=
        (div_le_div_iff_of_pos_right h2n).mpr (by linarith)
      linarith
    have hbound : 10 + (((m : ℚ) + 1) / (2 * (n : ℚ))) * 80 ≤ 100 := by
      have hle : ((m : ℚ) + 1) / (2 * (n : ℚ)) ≤ 1 := by
        rw [div_le_one h2n]
        exact_mod_cast Nat.cast_le.mpr hm
      have h0 : (0 : ℚ) ≤ ((m : ℚ) + 1) / (2 * (n : ℚ)) := by positivity
      linarith
    constructor
    · rw [hsplit]
      refine updatesOk_append hok ?_
      rw [hfp]
      simp only [UpdatesOk, presAssetUpdate]
      exact ⟨hmono, hbound, trivial⟩
    · rw [hsplit, finalProgress_append, hfp]
      simp only [finalProgress, presAssetUpdate, List.foldl_cons, List.foldl_nil,
        Option.getD_some]
      unfold presProg
      push_cast
      ring_nf

lemma presSuccessOk (n : Nat) (msgs : Nat → String) (payload : String) :
    UpdatesOk 0 (presSuccessUpdates n msgs payload) := by
  have hassets := presAssetsOk n msgs (2 * n) (le_refl _)
  have hass : UpdatesOk 10 (presAssetUpdates n msgs) := by
    have h := hassets.1
    rw [presProg_zero] at h
    simpa [assetsUpTo, presAssetUpdates] using h
  have hfp : finalProgress 10 (presAssetUpdates n msgs) = presProg n (2 * n) := by
    have h := hassets.2
    rw [presProg_zero] at h
    simpa [assetsUpTo, presAssetUpdates] using h
  simp only [presSuccessUpdates, UpdatesOk, presOutlineUpdate]
  refine ⟨by norm_num, by norm_num, ?_⟩
  refine updatesOk_append hass ?_
  rw [hfp]
  simp only [UpdatesOk, presAssembleUpdate, presCompletedUpdate]
  refine ⟨?_, by norm_num, by norm_num, by norm_num, trivial⟩
  calc presProg n (2 * n) ≤ 90 := presProg_le_90 n (2 * n) (le_refl _)
    _ ≤ 95 := by norm_num

lemma presUpdatesOk (n : Nat) (msgs : Nat → String) (payload : String)
    (cut : Option Nat) (failMsg : String) :
    UpdatesOk 0 (presUpdates n msgs payload cut failMsg) := by
  cases cut with
  | none => exact presSuccessOk n msgs payload
  | some j =>
    refine updatesOk_append (updatesOk_take (presSuccessOk n msgs payload) j) ?_
    simp only [UpdatesOk, presFailedUpdate]

/-- C8.  For every video-generation run (any number of poll iterations,
completing or failing at any point) and every presentation-generation run
(any slide count, succeeding or failing after any prefix of its updates),
the task's progress is monotonically non-decreasing from creation until the
terminal update, and stays within 0–100 throughout. -/
theorem task_progress_monotone_bounded (vid pid : String) (k : Nat)
    (success : Bool) (url vmsg : String) (n : Nat) (msgs : Nat → String)
    (payload : String) (cut : Option Nat) (fmsg : String) :
    (List.Chain' (· ≤ ·)
        (progressTrace (videoInitialTask vid) (videoUpdates k success url vmsg)) ∧
      ∀ q ∈ progressTrace (videoInitialTask vid) (videoUpdates k success url vmsg),
        0 ≤ q ∧ q ≤ 100) ∧
    (List.Chain' (· ≤ ·)
        (progressTrace (presInitialTask pid) (presUpdates n msgs payload cut fmsg)) ∧
      ∀ q ∈ progressTrace (presInitialTask pid) (presUpdates n msgs payload cut fmsg),
        0 ≤ q ∧ q ≤ 100) := by
  have hv : UpdatesOk (videoInitialTask vid).progress (videoUpdates k success url vmsg) :=
    videoUpdatesOk k success url vmsg
  have hp : UpdatesOk (presInitialTask pid).progress (presUpdates n msgs payload cut fmsg) :=
    presUpdatesOk n msgs payload cut fmsg
  refine ⟨⟨chain_progressTrace _ _ hv, bounds_progressTrace _ _ ?_ ?_ hv⟩,
    ⟨chain_progressTrace _ _ hp, bounds_progressTrace _ _ ?_ ?_ hp⟩⟩
  · norm_num [videoInitialTask]
  · norm_num [videoInitialTask]
  · norm_num [presInitialTask]
  · norm_num [presInitialTask]

/-- Witness for C8 on a concrete video run (one poll, success) and a
concrete presentation run (one slide, failure after two updates). -/
theorem task_progress_monotone_bounded_witness :
    List.Chain' (· ≤ ·)
      (progressTrace (videoInitialTask "v") (videoUpdates 1 true "u" "m")) ∧
    ((25 : ℚ) ∈ progressTrace (videoInitialTask "v") (videoUpdates 1 true "u" "m") ∧
      0 ≤ (25 : ℚ) ∧ (25 : ℚ) ≤ 100) ∧
    List.Chain' (· ≤ ·)
      (progressTrace (presInitialTask "p")
        (presUpdates 1 (fun _ => "s") "pay" (some 2) "f")) := by
  obtain ⟨⟨hc1, hb1⟩, ⟨hc2, _⟩⟩ :=
    task_progress_monotone_bounded "v" "p" 1 true "u" "m" 1 (fun _ => "s") "pay"
      (some 2) "f"
  have hmem : (25 : ℚ) ∈ progressTrace (videoInitialTask "v")
      (videoUpdates 1 true "u" "m") := by
    rw [show progressTrace (videoInitialTask "v") (videoUpdates 1 true "u" "m") =
      [5, 25, 100] from by norm_num [progressTrace, videoUpdates, videoPollUpdates,
        videoInitialTask, videoPollUpdate, videoCompletedUpdate, applyUpdate,
        List.scanl_cons, List.scanl_nil, List.range_succ]]
    simp
  exact ⟨hc1, ⟨hmem, hb1 25 hmem⟩, hc2⟩

end VoiceKit
